import Mathlib

/-!
Verification of the currency-rates ingestion and query pipeline.

This file shallowly embeds the core of the Rust repository:
  * `convert_base_currency`, `round_rate`, `get_rates_for_date`,
    `sync_provider`, `sync_all_providers` from `src/service.rs`,
  * `fill_gaps` from `src/providers/mod.rs`,
  * the ECB triangulation loop of `parse_xml` from `src/providers/ecb.rs`,
  * the NBU triangulation loop of `fetch_date` / `fetch_range` from
    `src/providers/nbu.rs`,
  * the row counting of `store_daily_rates_batch` from `src/db/repository.rs`.

Modelling conventions:
  * `f64` rates are modelled as exact rationals (`ℚ`); the arithmetic the
    code performs (division, multiplication, `round`) is embedded exactly.
  * `HashMap<String, f64>` is modelled as an association list with distinct
    keys; `insert` replaces an existing binding.  Iterating a `HashMap` and
    inserting each (necessarily distinct) key into a fresh map is modelled
    as a structural traversal of the association list.
  * `NaiveDate` is modelled as `ℤ` (a day number); `+ Duration::days(1)`
    is `+ 1`.  The ambient clock value `chrono::Utc::now().date_naive()`
    is passed in explicitly as a `today : ℤ` parameter.
  * `async` functions performing storage / network effects are modelled as
    pure functions taking the collaborators' results as arguments and
    returning the list of storage effects they perform.
-/

/-- Model of `HashMap<String, f64>`: an association list of rational rates. -/
abbrev RateTable := List (String × ℚ)

/-- `HashMap::get`: first binding of the key, if any. -/
def lookupRate : RateTable → String → Option ℚ
  | [], _ => none
  | (k, v) :: rest, c => if k = c then some v else lookupRate rest c

/-- `HashMap::insert`: replace the binding of the key, or add it. -/
def insertRate : RateTable → String → ℚ → RateTable
  | [], c, q => [(c, q)]
  | (k, v) :: rest, c, q => if k = c then (c, q) :: rest else (k, v) :: insertRate rest c q

/-- The error variants of `AppError` (from `src/error.rs`) reached by the
embedded code paths. -/
inductive AppError where
  | invalidCurrency : String → AppError
  | noDataAvailable : AppError
  | provider : String → AppError
deriving DecidableEq, Repr

/-- The conversion loop of `RatesService::convert_base_currency`
(`src/service.rs` lines 58-68): every entry whose key is the target base is
skipped, every other entry is divided by the conversion rate.  Inserting the
pairwise-distinct keys of the iterated map into the fresh `converted` map is
modelled by keeping the traversal order. -/
def convertLoop (conversion_rate : ℚ) (to_base : String) : RateTable → RateTable
  | [] => []
  | (k, v) :: rest =>
      if k = to_base then convertLoop conversion_rate to_base rest
      else (k, v / conversion_rate) :: convertLoop conversion_rate to_base rest

/-- `RatesService::convert_base_currency` (`src/service.rs` lines 41-74). -/
def convert_base_currency (rates : RateTable) (from_base to_base : String) :
    Except AppError RateTable :=
  if from_base = to_base then .ok rates
  else
    match lookupRate rates to_base with
    | none => .error (.invalidCurrency to_base)
    | some conversion_rate =>
        .ok (insertRate (convertLoop conversion_rate to_base rates)
              from_base (1 / conversion_rate))

/-- `RatesService::round_rate` (`src/service.rs` lines 77-79):
`(rate * 1_000_000.0).round() / 1_000_000.0`. -/
def round_rate (rate : ℚ) : ℚ :=
  ((round (rate * 1000000) : ℤ) : ℚ) / 1000000

/- ### Lookup lemmas for the table operations -/

theorem lookupRate_insertRate_self (t : RateTable) (c : String) (q : ℚ) :
    lookupRate (insertRate t c q) c = some q := by
  induction t with
  | nil => simp [insertRate, lookupRate]
  | cons kv rest ih =>
      obtain ⟨k, v⟩ := kv
      by_cases h : k = c
      · simp [insertRate, h, lookupRate]
      · simp [insertRate, h, lookupRate, ih]

theorem lookupRate_insertRate_ne (t : RateTable) (c c' : String) (q : ℚ)
    (h : c' ≠ c) : lookupRate (insertRate t c q) c' = lookupRate t c' := by
  induction t with
  | nil =>
      simp only [insertRate, lookupRate]
      rw [if_neg (fun h' => h h'.symm)]
  | cons kv rest ih =>
      obtain ⟨k, v⟩ := kv
      by_cases hk : k = c
      · subst hk
        simp only [insertRate, if_pos rfl, lookupRate]
        rw [if_neg (fun h' => h h'.symm), if_neg (fun h' => h h'.symm)]
      · simp only [insertRate, if_neg hk, lookupRate]
        by_cases hk2 : k = c'
        · rw [if_pos hk2, if_pos hk2]
        · rw [if_neg hk2, if_neg hk2, ih]

theorem lookupRate_convertLoop (conv : ℚ) (b : String) (t : RateTable) (c : String) :
    lookupRate (convertLoop conv b t) c =
      if c = b then none else (lookupRate t c).map (· / conv) := by
  induction t with
  | nil => simp [convertLoop, lookupRate]
  | cons kv rest ih =>
      obtain ⟨k, v⟩ := kv
      by_cases hb : k = b
      · subst hb
        simp only [convertLoop, if_true]
        rw [ih]
        by_cases hc : c = k
        · rw [if_pos hc, if_pos hc]
        · rw [if_neg hc, if_neg hc]
          simp only [lookupRate]
          rw [if_neg (fun h' => hc h'.symm)]
      · simp only [convertLoop, if_neg hb]
        by_cases hkc : k = c
        · subst hkc
          simp only [lookupRate, if_pos rfl]
          rw [if_neg (fun h : k = b => hb h)]
          rfl
        · simp only [lookupRate, if_neg hkc]
          exact ih

/-- C1: For every rate table `T` quoted against base `A` (with `A` itself
present at 1.0) and every target base `B` distinct from `A`:
if `B` is absent from `T`, `convert_base_currency T A B` fails with
`InvalidCurrency B`; otherwise it succeeds and the result maps every
currency `c` of `T` other than `B` (and other than `A`, which is handled by
the re-insert clause) to `T[c] / T[B]`, re-inserts the original base `A` at
`1 / T[B]`, and does not contain `B` as a key. -/
theorem convert_base_currency_spec (T : RateTable) (A B : String)
    (_hA : lookupRate T A = some 1) (hAB : A ≠ B) :
    (lookupRate T B = none →
        convert_base_currency T A B = .error (.invalidCurrency B)) ∧
    (∀ q, lookupRate T B = some q →
        ∃ out, convert_base_currency T A B = .ok out ∧
          lookupRate out B = none ∧
          lookupRate out A = some (1 / q) ∧
          (∀ c v, c ≠ B → c ≠ A → lookupRate T c = some v →
            lookupRate out c = some (v / q))) := by
  constructor
  · intro hB
    simp [convert_base_currency, if_neg hAB, hB]
  · intro q hB
    refine ⟨insertRate (convertLoop q B T) A (1 / q), ?_, ?_, ?_, ?_⟩
    · simp [convert_base_currency, if_neg hAB, hB]
    · rw [lookupRate_insertRate_ne _ _ _ _ (fun h => hAB h.symm),
        lookupRate_convertLoop, if_pos rfl]
    · exact lookupRate_insertRate_self _ _ _
    · intro c v hcB hcA hc
      rw [lookupRate_insertRate_ne _ _ _ _ hcA, lookupRate_convertLoop,
        if_neg hcB, hc]
      rfl

/-- Witness for C1 on a concrete EUR-based table converted to USD. -/
theorem convert_base_currency_spec_witness :
    (lookupRate [("EUR", (1 : ℚ)), ("USD", 2), ("JPY", 160)] "JPY" = some 160) ∧
    lookupRate
      ((convert_base_currency [("EUR", (1 : ℚ)), ("USD", 2), ("JPY", 160)]
          "EUR" "USD").toOption.getD []) "JPY" = some 80 := by
  have h := (convert_base_currency_spec
      [("EUR", (1 : ℚ)), ("USD", 2), ("JPY", 160)] "EUR" "USD"
      (by decide) (by decide)).2 2 (by decide)
  obtain ⟨out, hout, -, -, hmap⟩ := h
  have hJ := hmap "JPY" 160 (by decide) (by decide) (by decide)
  refine ⟨by decide, ?_⟩
  rw [hout]
  simp only [Except.toOption, Option.getD]
  rw [hJ]
  norm_num

/-- C6: conversion identity, round trip and missing-target failure for
`convert_base_currency`.  The table is quoted against `A` (present at 1.0);
the data-model invariant `rate > 0` (spec section 3) enters as `q ≠ 0`.
With exact rational arithmetic "up to floating equality" becomes equality. -/
theorem convert_roundtrip_spec (T : RateTable) (A B : String)
    (hA : lookupRate T A = some 1) :
    (convert_base_currency T A A = .ok T) ∧
    (∀ q, lookupRate T B = some q → q ≠ 0 →
        ∃ T2 out, convert_base_currency T A B = .ok T2 ∧
          convert_base_currency T2 B A = .ok out ∧
          ∀ c v w, lookupRate T c = some v → lookupRate out c = some w →
            w = v) ∧
    (lookupRate T B = none →
        convert_base_currency T A B = .error (.invalidCurrency B)) := by
  refine ⟨by simp [convert_base_currency], ?_, ?_⟩
  · intro q hB hq
    by_cases hAB : A = B
    · subst hAB
      refine ⟨T, T, by simp [convert_base_currency],
        by simp [convert_base_currency], ?_⟩
      intro c v w hv hw
      rw [hv] at hw
      exact (Option.some_inj.mp hw).symm
    · have hBA : B ≠ A := fun h => hAB h.symm
      have hconv1 : convert_base_currency T A B =
          .ok (insertRate (convertLoop q B T) A (1 / q)) := by
        simp only [convert_base_currency, if_neg hAB, hB]
      have hT2A : lookupRate (insertRate (convertLoop q B T) A (1 / q)) A
          = some (1 / q) := lookupRate_insertRate_self _ _ _
      have hconv2 : convert_base_currency
          (insertRate (convertLoop q B T) A (1 / q)) B A =
          .ok (insertRate
            (convertLoop (1 / q) A (insertRate (convertLoop q B T) A (1 / q)))
            B (1 / (1 / q))) := by
        simp only [convert_base_currency, if_neg hBA, hT2A]
      refine ⟨_, _, hconv1, hconv2, ?_⟩
      intro c v w hv hw
      by_cases hcB : c = B
      · subst hcB
        -- `B` is re-inserted by the second conversion at `1 / (1 / q)`.
        rw [lookupRate_insertRate_self] at hw
        rw [hB] at hv
        have hv' : v = q := Option.some_inj.mp hv.symm
        have hw' : w = 1 / (1 / q) := Option.some_inj.mp hw.symm
        rw [hv', hw', one_div_one_div]
      · by_cases hcA : c = A
        · subst hcA
          -- `A` is the target base of the second conversion and is dropped.
          rw [lookupRate_insertRate_ne _ _ _ _ hcB, lookupRate_convertLoop,
            if_pos rfl] at hw
          cases hw
        · rw [lookupRate_insertRate_ne _ _ _ _ hcB, lookupRate_convertLoop,
            if_neg hcA, lookupRate_insertRate_ne _ _ _ _ hcA,
            lookupRate_convertLoop, if_neg hcB, hv] at hw
          simp only [Option.map_some'] at hw
          have hw' : w = v / q / (1 / q) := Option.some_inj.mp hw.symm
          rw [hw']
          field_simp
  · intro hB
    have hAB : A ≠ B := fun h => by rw [h, hB] at hA; cases hA
    simp [convert_base_currency, if_neg hAB, hB]

/-- Witness for C6: round trip EUR → USD → EUR on a concrete table. -/
theorem convert_roundtrip_spec_witness :
    ((160 : ℚ) ≠ 0) ∧
    ∃ T2 out,
      convert_base_currency [("EUR", (1 : ℚ)), ("USD", 2), ("JPY", 160)]
        "EUR" "JPY" = .ok T2 ∧
      convert_base_currency T2 "JPY" "EUR" = .ok out ∧
      ∀ c v w,
        lookupRate [("EUR", (1 : ℚ)), ("USD", 2), ("JPY", 160)] c = some v →
        lookupRate out c = some w → w = v :=
  ⟨by decide,
   (convert_roundtrip_spec [("EUR", (1 : ℚ)), ("USD", 2), ("JPY", 160)]
      "EUR" "JPY" (by decide)).2.1 160 (by decide) (by decide)⟩

/- ### ECB adapter (`src/providers/ecb.rs`) -/

/-- The rate collection of `EcbProvider::parse_xml` (`src/providers/ecb.rs`
lines 74-79) for one date node: the native-pivot map starts with EUR at 1.0
and then receives every listed currency/rate attribute. -/
def ecbCollect (node : List (String × ℚ)) : RateTable :=
  node.foldl (fun acc kv => insertRate acc kv.1 kv.2) [("EUR", 1)]

/-- The triangulation of `EcbProvider::parse_xml` (`src/providers/ecb.rs`
lines 82-109) for one date node: `none` models the `continue` (skip with a
warning) when the node has no USD quote; otherwise `usd_rates` starts with
USD at 1.0 and the loop inserts `eur_rate / eur_usd` for every other
(pairwise-distinct, non-USD) key of the collected map, modelled by a cons
onto the traversal of the collected map. -/
def ecb_triangulate (node : List (String × ℚ)) : Option RateTable :=
  match lookupRate (ecbCollect node) "USD" with
  | none => none
  | some eur_usd => some (("USD", 1) :: convertLoop eur_usd "USD" (ecbCollect node))

/- ### NBU adapter (`src/providers/nbu.rs`) -/

/-- The conversion loop of `NbuProvider::fetch_date` (`src/providers/nbu.rs`
lines 223-229), also used per date by `fetch_range` (lines 312-318): skip the
USD entry, insert `usd_uah / uah_rate` for every other entry into the
accumulator map (which already binds USD and UAH, so UAH may be
overwritten). -/
def nbuLoop (usd_uah : ℚ) : List (String × ℚ) → RateTable → RateTable
  | [], acc => acc
  | (k, v) :: rest, acc =>
      nbuLoop usd_uah rest (if k = "USD" then acc else insertRate acc k (usd_uah / v))

/-- The triangulation shared by `NbuProvider::fetch_date` (lines 200-229) and
the per-date step of `fetch_range` (lines 293-318): require the USD quote in
the merged native (UAH-quoted) map, then build the USD-based table starting
from `{USD ↦ 1, UAH ↦ usd_uah}`. -/
def nbu_triangulate (uah_rates : List (String × ℚ)) : Option RateTable :=
  match lookupRate uah_rates "USD" with
  | none => none
  | some usd_uah => some (nbuLoop usd_uah uah_rates [("USD", 1), ("UAH", usd_uah)])

/-- `NbuProvider::fetch_date` error shaping (lines 208-216): a missing USD
quote is a `ProviderError`; `fetch_latest` (lines 156-164) behaves the same. -/
def nbu_fetch_day (uah_rates : List (String × ℚ)) : Except AppError RateTable :=
  match nbu_triangulate uah_rates with
  | none => .error (.provider "USD/UAH rate not found in NBU response")
  | some t => .ok t

/-- The per-date assembly of `NbuProvider::fetch_range` (lines 291-329): a
date whose merged quotes lack USD is skipped (`continue`), the rest are
triangulated and the results sorted by date. -/
def nbu_fetch_range_days (days : List (ℤ × List (String × ℚ))) :
    List (ℤ × RateTable) :=
  List.mergeSort
    (days.filterMap (fun d => (nbu_triangulate d.2).map (fun t => (d.1, t))))
    (fun a b => decide (a.1 ≤ b.1))

theorem lookupRate_eq_none_iff (t : RateTable) (c : String) :
    lookupRate t c = none ↔ c ∉ t.map Prod.fst := by
  induction t with
  | nil => simp [lookupRate]
  | cons kv rest ih =>
      obtain ⟨k, v⟩ := kv
      by_cases hk : k = c
      · simp [lookupRate, hk]
      · simp only [lookupRate, if_neg hk, List.map_cons, List.mem_cons, not_or, ih]
        exact ⟨fun h => ⟨fun h' => hk h'.symm, h⟩, fun h => h.2⟩

theorem lookupRate_nbuLoop_not_mem (u : ℚ) (t : List (String × ℚ))
    (acc : RateTable) (c : String) (h : c ∉ t.map Prod.fst) :
    lookupRate (nbuLoop u t acc) c = lookupRate acc c := by
  induction t generalizing acc with
  | nil => rfl
  | cons kv rest ih =>
      obtain ⟨k, v⟩ := kv
      simp only [List.map_cons, List.mem_cons, not_or] at h
      simp only [nbuLoop]
      rw [ih _ h.2]
      by_cases hk : k = "USD"
      · rw [if_pos hk]
      · rw [if_neg hk, lookupRate_insertRate_ne _ _ _ _ h.1]

theorem lookupRate_nbuLoop_usd (u : ℚ) (t : List (String × ℚ)) (acc : RateTable) :
    lookupRate (nbuLoop u t acc) "USD" = lookupRate acc "USD" := by
  induction t generalizing acc with
  | nil => rfl
  | cons kv rest ih =>
      obtain ⟨k, v⟩ := kv
      simp only [nbuLoop]
      rw [ih]
      by_cases hk : k = "USD"
      · rw [if_pos hk]
      · rw [if_neg hk, lookupRate_insertRate_ne _ _ _ _ (fun h' => hk h'.symm)]

theorem lookupRate_nbuLoop_mem (u : ℚ) (t : List (String × ℚ)) (acc : RateTable)
    (c : String) (q : ℚ) (hnd : (t.map Prod.fst).Nodup) (hc : c ≠ "USD")
    (hq : lookupRate t c = some q) :
    lookupRate (nbuLoop u t acc) c = some (u / q) := by
  induction t generalizing acc with
  | nil => cases hq
  | cons kv rest ih =>
      obtain ⟨k, v⟩ := kv
      simp only [List.map_cons, List.nodup_cons] at hnd
      by_cases hk : k = c
      · subst hk
        simp only [lookupRate, if_pos rfl] at hq
        have hv : v = q := Option.some_inj.mp hq
        simp only [nbuLoop, if_neg (fun h : k = "USD" => hc h)]
        rw [lookupRate_nbuLoop_not_mem _ _ _ _ hnd.1, hv,
          lookupRate_insertRate_self]
      · simp only [lookupRate, if_neg hk] at hq
        simp only [nbuLoop]
        exact ih _ hnd.2 hq

/-- C3 (amended): for every ECB date node, a missing USD quote makes the
date be skipped; otherwise the produced table has base USD with USD at
exactly 1.0 and every other collected currency `c` (including the native
pivot EUR, collected at 1.0) at `native_rate[c] / native_rate[USD]`.  On
the node `USD=1.0586, JPY=158.11` this gives `EUR ≈ 0.94464` within `1e-4`
and `JPY ≈ 149.36` within `1e-2` (the exact quotient is `149.3576...`,
which is not within the originally claimed `1e-4` of `149.36`; see the
counterexample). -/
theorem ecb_parse_xml_spec (node : List (String × ℚ)) :
    (lookupRate (ecbCollect node) "USD" = none → ecb_triangulate node = none) ∧
    (∀ u, lookupRate (ecbCollect node) "USD" = some u →
      ∃ out, ecb_triangulate node = some out ∧
        lookupRate out "USD" = some 1 ∧
        (∀ c r, c ≠ "USD" → lookupRate (ecbCollect node) c = some r →
          lookupRate out c = some (r / u))) ∧
    (∃ out, ecb_triangulate [("USD", (10586 : ℚ)/10000), ("JPY", 15811/100)]
        = some out ∧
      (∃ e, lookupRate out "EUR" = some e ∧ |e - 94464/100000| ≤ 1/10000) ∧
      (∃ j, lookupRate out "JPY" = some j ∧ |j - 14936/100| ≤ 1/100)) := by
  refine ⟨?_, ?_, ?_⟩
  · intro h
    simp [ecb_triangulate, h]
  · intro u hu
    refine ⟨("USD", 1) :: convertLoop u "USD" (ecbCollect node), ?_, ?_, ?_⟩
    · simp [ecb_triangulate, hu]
    · simp [lookupRate]
    · intro c r hc hr
      simp only [lookupRate, if_neg (fun h' : "USD" = c => hc h'.symm)]
      rw [lookupRate_convertLoop, if_neg hc, hr]
      rfl
  · exact ⟨_, rfl, ⟨_, rfl, by rw [abs_le]; constructor <;> norm_num⟩,
      ⟨_, rfl, by rw [abs_le]; constructor <;> norm_num⟩⟩

/-- Witness for C3 on the concrete node of the repository's own test. -/
theorem ecb_parse_xml_spec_witness :
    (lookupRate (ecbCollect [("USD", (10586 : ℚ)/10000), ("JPY", 15811/100)])
        "USD" = some (10586/10000)) ∧
    ∃ out,
      ecb_triangulate [("USD", (10586 : ℚ)/10000), ("JPY", 15811/100)]
        = some out ∧
      lookupRate out "USD" = some 1 ∧
      (∀ c r, c ≠ "USD" →
        lookupRate (ecbCollect [("USD", (10586 : ℚ)/10000), ("JPY", 15811/100)]) c
          = some r →
        lookupRate out c = some (r / (10586/10000))) :=
  ⟨rfl,
   (ecb_parse_xml_spec [("USD", (10586 : ℚ)/10000), ("JPY", 15811/100)]).2.1
     (10586/10000) rfl⟩

/-- Counterexample to C3 as stated: the JPY value produced for the node
`USD=1.0586, JPY=158.11` is exactly `158.11 / 1.0586 = 790550/5293 =
149.3576...`, which is not within `1e-4` of the claimed `149.36`. -/
theorem ecb_parse_xml_counterexample :
    (ecb_triangulate [("USD", (10586 : ℚ)/10000), ("JPY", 15811/100)]).bind
        (fun t => lookupRate t "JPY") = some ((15811/100) / ((10586 : ℚ)/10000)) ∧
    ((15811/100) / ((10586 : ℚ)/10000) = 790550/5293) ∧
    ¬(|(790550 : ℚ)/5293 - 14936/100| ≤ 1/10000) := by
  refine ⟨rfl, by norm_num, ?_⟩
  rw [abs_le]
  intro h
  have h1 := h.1
  norm_num at h1

/-- C4 (amended): for every merged native (UAH-quoted) map with distinct
keys: a missing USD quote makes `fetch_latest`/`fetch_date` fail with a
`ProviderError` and makes `fetch_range` skip the date entirely; otherwise
every fetched currency `c` other than USD is mapped to
`native_quote[USD] / native_quote[c]` (this includes UAH itself when UAH is
among the fetched quotes — see the counterexample), UAH is mapped to
`native_quote[USD]` when UAH is not among the fetched quotes, and USD to
1.0.  On native quotes `USD=42.30, AZN=24.88` this yields `UAH=42.30` and
`AZN ≈ 1.70` within `1e-2`. -/
theorem nbu_triangulate_spec (uah_rates : List (String × ℚ))
    (days : List (ℤ × List (String × ℚ)))
    (hnd : (uah_rates.map Prod.fst).Nodup)
    (hdays : (days.map Prod.fst).Nodup) :
    (lookupRate uah_rates "USD" = none →
      nbu_triangulate uah_rates = none ∧
      nbu_fetch_day uah_rates =
        .error (.provider "USD/UAH rate not found in NBU response")) ∧
    (∀ u, lookupRate uah_rates "USD" = some u →
      ∃ out, nbu_triangulate uah_rates = some out ∧
        nbu_fetch_day uah_rates = .ok out ∧
        lookupRate out "USD" = some 1 ∧
        (lookupRate uah_rates "UAH" = none → lookupRate out "UAH" = some u) ∧
        (∀ c q, c ≠ "USD" → lookupRate uah_rates c = some q →
          lookupRate out c = some (u / q))) ∧
    (∀ d quotes, (d, quotes) ∈ days → lookupRate quotes "USD" = none →
      d ∉ (nbu_fetch_range_days days).map Prod.fst) ∧
    (∃ out, nbu_triangulate [("USD", (423 : ℚ)/10), ("AZN", 2488/100)]
        = some out ∧
      lookupRate out "UAH" = some (423/10) ∧
      (∃ a, lookupRate out "AZN" = some a ∧ |a - 17/10| ≤ 1/100)) := by
  refine ⟨?_, ?_, ?_, ?_⟩
  · intro h
    simp [nbu_triangulate, nbu_fetch_day, h]
  · intro u hu
    refine ⟨nbuLoop u uah_rates [("USD", 1), ("UAH", u)], ?_, ?_, ?_, ?_, ?_⟩
    · simp [nbu_triangulate, hu]
    · simp [nbu_fetch_day, nbu_triangulate, hu]
    · rw [lookupRate_nbuLoop_usd]
      rfl
    · intro hUAH
      rw [lookupRate_nbuLoop_not_mem _ _ _ _
        ((lookupRate_eq_none_iff _ _).mp hUAH)]
      rfl
    · intro c q hc hq
      exact lookupRate_nbuLoop_mem _ _ _ _ _ hnd hc hq
  · intro d quotes hmem husd hd
    have hperm := List.mergeSort_perm
      (days.filterMap (fun d => (nbu_triangulate d.2).map (fun t => (d.1, t))))
      (fun a b => decide (a.1 ≤ b.1))
    rw [List.mem_map] at hd
    obtain ⟨⟨d', t⟩, hdt, hdeq⟩ := hd
    have hdt' := hperm.mem_iff.mp hdt
    rw [List.mem_filterMap] at hdt'
    obtain ⟨⟨d'', quotes'⟩, hmem', heq⟩ := hdt'
    simp only [Option.map_eq_some'] at heq
    obtain ⟨t', ht', heq2⟩ := heq
    have hd2 : d'' = d := by
      have := congrArg Prod.fst heq2
      simp at this
      simp at hdeq
      rw [this, hdeq]
    subst hd2
    have hq : quotes' = quotes := by
      have h1 : (Prod.fst : ℤ × List (String × ℚ) → ℤ) ⟨d'', quotes'⟩ =
          (Prod.fst : ℤ × List (String × ℚ) → ℤ) ⟨d'', quotes⟩ := rfl
      exact congrArg Prod.snd (List.inj_on_of_nodup_map hdays hmem' hmem h1)
    rw [hq] at ht'
    rw [nbu_triangulate, husd] at ht'
    cases ht'
  · exact ⟨_, rfl, rfl, _, rfl, by rw [abs_le]; constructor <;> norm_num⟩

/-- Witness for C4 on the native quotes of the spec's NBU scenario. -/
theorem nbu_triangulate_spec_witness :
    (lookupRate [("USD", (423 : ℚ)/10), ("AZN", 2488/100)] "USD"
        = some (423/10)) ∧
    ∃ out,
      nbu_triangulate [("USD", (423 : ℚ)/10), ("AZN", 2488/100)] = some out ∧
      nbu_fetch_day [("USD", (423 : ℚ)/10), ("AZN", 2488/100)] = .ok out ∧
      lookupRate out "USD" = some 1 ∧
      (lookupRate [("USD", (423 : ℚ)/10), ("AZN", 2488/100)] "UAH" = none →
        lookupRate out "UAH" = some (423/10)) ∧
      (∀ c q, c ≠ "USD" →
        lookupRate [("USD", (423 : ℚ)/10), ("AZN", 2488/100)] c = some q →
        lookupRate out c = some ((423/10) / q)) :=
  ⟨rfl,
   (nbu_triangulate_spec [("USD", (423 : ℚ)/10), ("AZN", 2488/100)] []
     (by simp) (by simp)).2.1 (423/10) rfl⟩

/-- Counterexample to C4 as stated: when the fetched quotes themselves
contain UAH (as in `fetch_range`, which queries UAH as one of its tracked
currencies), the conversion loop overwrites the initial
`UAH ↦ native_quote[USD]` binding with
`native_quote[USD] / native_quote[UAH]`.  With `USD=42.30, UAH=2.0` the
produced UAH rate is `21.15`, not the claimed `42.30`. -/
theorem nbu_triangulate_counterexample :
    (nbu_triangulate [("USD", (423 : ℚ)/10), ("UAH", 2)]).bind
        (fun t => lookupRate t "UAH") = some ((423 : ℚ)/10/2) ∧
    ((423 : ℚ)/10/2 = 423/20) ∧
    ¬((423 : ℚ)/20 = 423/10) := by
  exact ⟨rfl, by norm_num, by norm_num⟩

/- ### Gap filler (`src/providers/mod.rs`) -/

/-- `DailyRates` (`src/models.rs`): one provider's snapshot for one date.
The date is a day number; consecutive calendar days differ by 1. -/
structure DailyRates where
  date : ℤ
  base_currency : String
  rates : RateTable
  provider : String
deriving DecidableEq, Repr

/-- A synthetic gap-fill entry (`src/providers/mod.rs` lines 29-34 and
51-56): the carried-forward source's table and base currency, the fill
date, and the passed-in provider-name label. -/
def synthFrom (src : DailyRates) (provider_name : String) (d : ℤ) : DailyRates :=
  ⟨d, src.base_currency, src.rates, provider_name⟩

/-- The run of synthetic entries produced by one `while` loop of
`fill_gaps`: `n` consecutive days starting at `start`, all copied from
`src` and labelled `provider_name`. -/
def fillRange (src : DailyRates) (provider_name : String) (start : ℤ) (n : ℕ) :
    List DailyRates :=
  (List.range n).map (fun i : ℕ => synthFrom src provider_name (start + (i : ℤ)))

/-- The main loop of `fill_gaps` (`src/providers/mod.rs` lines 21-41): push
each entry of the sorted list, preceded by one synthetic entry per day
strictly between the previous entry's date and its own. -/
def fillWalk (provider_name : String) : List DailyRates → List DailyRates
  | [] => []
  | [x] => [x]
  | x :: y :: rest =>
      (x :: fillRange x provider_name (x.date + 1) (y.date - x.date - 1).toNat)
        ++ fillWalk provider_name (y :: rest)

/-- `fill_gaps` (`src/providers/mod.rs` lines 13-62).  The ambient
`chrono::Utc::now().date_naive()` of line 45 is the explicit `today`
parameter; `rates.sort_by_key(|r| r.date)` (a stable sort) is
`List.mergeSort`; after the main loop the trailing `while` (lines 50-58)
extends the last pushed entry (the maximal original) day by day through
`today`. -/
def fill_gaps (rates : List DailyRates) (provider_name : String) (today : ℤ) :
    List DailyRates :=
  if rates.isEmpty then rates
  else
    match (fillWalk provider_name
        (List.mergeSort rates (fun a b => decide (a.date ≤ b.date)))).getLast? with
    | none =>
        fillWalk provider_name
          (List.mergeSort rates (fun a b => decide (a.date ≤ b.date)))
    | some last =>
        fillWalk provider_name
            (List.mergeSort rates (fun a b => decide (a.date ≤ b.date)))
          ++ fillRange last provider_name (last.date + 1)
            (today - last.date).toNat

/-- The inclusive integer interval `[a, b]` as a list, empty when `b < a`. -/
def intRange (a b : ℤ) : List ℤ :=
  (List.range (b + 1 - a).toNat).map (fun i : ℕ => a + (i : ℤ))

theorem intRange_eq_nil (a b : ℤ) (h : b < a) : intRange a b = [] := by
  unfold intRange
  rw [Int.toNat_of_nonpos (by omega)]
  rfl

theorem intRange_eq_cons (a b : ℤ) (h : a ≤ b) :
    intRange a b = a :: intRange (a + 1) b := by
  unfold intRange
  have h1 : (b + 1 - a).toNat = (b + 1 - (a + 1)).toNat + 1 := by omega
  rw [h1, List.range_succ_eq_map, List.map_cons, List.map_map]
  congr 1
  · simp
  · refine List.map_congr_left ?_
    intro i _
    simp only [Function.comp_apply]
    push_cast
    ring

theorem intRange_append (n : ℕ) : ∀ a b c : ℤ, (b - a).toNat = n → a ≤ b →
    b ≤ c + 1 → intRange a (b - 1) ++ intRange b c = intRange a c := by
  induction n with
  | zero =>
      intro a b c hn hab hbc
      have hab' : a = b := by omega
      subst hab'
      rw [intRange_eq_nil _ _ (by omega), List.nil_append]
  | succ m ih =>
      intro a b c hn hab hbc
      have hab' : a ≤ b - 1 := by omega
      have hac : a ≤ c := by omega
      rw [intRange_eq_cons _ _ hab', intRange_eq_cons _ _ hac, List.cons_append]
      refine congrArg (fun l => a :: l) ?_
      exact ih (a + 1) b c (by omega) (by omega) hbc

theorem mem_intRange (a b d : ℤ) : d ∈ intRange a b ↔ a ≤ d ∧ d ≤ b := by
  unfold intRange
  simp only [List.mem_map, List.mem_range]
  constructor
  · rintro ⟨i, hi, rfl⟩
    omega
  · rintro ⟨h1, h2⟩
    exact ⟨(d - a).toNat, by omega, by omega⟩

theorem fillRange_map_date (src : DailyRates) (p : String) (start : ℤ) (n : ℕ) :
    (fillRange src p start n).map (fun r => r.date) =
      intRange start (start + n - 1) := by
  unfold fillRange intRange
  rw [List.map_map]
  have hn : (start + n - 1 + 1 - start).toNat = n := by omega
  rw [hn]
  rfl

theorem mem_fillRange (src : DailyRates) (p : String) (start : ℤ) (n : ℕ)
    (e : DailyRates) : e ∈ fillRange src p start n ↔
      ∃ i : ℕ, i < n ∧ e = synthFrom src p (start + i) := by
  unfold fillRange
  simp only [List.mem_map, List.mem_range]
  constructor
  · rintro ⟨i, hi, rfl⟩
    exact ⟨i, hi, rfl⟩
  · rintro ⟨i, hi, rfl⟩
    exact ⟨i, hi, rfl⟩

/-- Strict chronological sortedness of a snapshot list. -/
def StrictByDate (xs : List DailyRates) : Prop :=
  xs.Pairwise (fun a b => a.date < b.date)

theorem fillWalk_ne_nil (p : String) (x : DailyRates) (tl : List DailyRates) :
    fillWalk p (x :: tl) ≠ [] := by
  cases tl with
  | nil => simp [fillWalk]
  | cons y rest => simp [fillWalk]

theorem fillWalk_getLast? (p : String) (x : DailyRates) (tl : List DailyRates) :
    (fillWalk p (x :: tl)).getLast? = (x :: tl).getLast? := by
  induction tl generalizing x with
  | nil => rfl
  | cons y rest ih =>
      show ((x :: fillRange x p (x.date + 1) (y.date - x.date - 1).toNat)
          ++ fillWalk p (y :: rest)).getLast? = _
      rw [List.getLast?_append_of_ne_nil _ (fillWalk_ne_nil p y rest), ih,
        List.getLast?_cons_cons]

theorem head_le_of_strict (x : DailyRates) (tl : List DailyRates)
    (hs : StrictByDate (x :: tl)) (r : DailyRates) (hr : r ∈ x :: tl) :
    x.date ≤ r.date := by
  rcases List.mem_cons.mp hr with h | h
  · rw [h]
  · exact le_of_lt ((List.pairwise_cons.mp hs).1 r h)

theorem date_le_getLast : ∀ (xs : List DailyRates) (h : xs ≠ []),
    StrictByDate xs → ∀ r ∈ xs, r.date ≤ (xs.getLast h).date := by
  intro xs
  induction xs with
  | nil => intro h; cases h rfl
  | cons x tl ih =>
      intro h hs r hr
      cases tl with
      | nil =>
          rcases List.mem_cons.mp hr with h1 | h1
          · rw [h1]; rfl
          · cases h1
      | cons y rest =>
          rw [List.getLast_cons_cons]
          have hs' : StrictByDate (y :: rest) := (List.pairwise_cons.mp hs).2
          rcases List.mem_cons.mp hr with h1 | h1
          · rw [h1]
            calc x.date ≤ y.date :=
                  le_of_lt ((List.pairwise_cons.mp hs).1 y (by simp))
              _ ≤ _ := ih (by simp) hs' y (by simp)
          · exact ih (by simp) hs' r h1

theorem fillWalk_map_date (p : String) (tl : List DailyRates) (x : DailyRates)
    (hs : StrictByDate (x :: tl)) :
    (fillWalk p (x :: tl)).map (fun r => r.date) =
      intRange x.date (((x :: tl).getLast (by simp)).date) := by
  induction tl generalizing x with
  | nil =>
      show [x.date] = intRange x.date x.date
      rw [intRange_eq_cons _ _ le_rfl, intRange_eq_nil _ _ (by omega)]
  | cons y rest ih =>
      have hxy : x.date < y.date := (List.pairwise_cons.mp hs).1 y (by simp)
      have hs' : StrictByDate (y :: rest) := (List.pairwise_cons.mp hs).2
      have hyL : y.date ≤ (((y :: rest).getLast (by simp)).date) :=
        date_le_getLast _ (by simp) hs' y (by simp)
      show ((x :: fillRange x p (x.date + 1) (y.date - x.date - 1).toNat)
          ++ fillWalk p (y :: rest)).map (fun r => r.date) = _
      rw [List.map_append, List.map_cons, fillRange_map_date, ih y hs',
        List.getLast_cons_cons]
      have he : x.date + 1 + ((y.date - x.date - 1).toNat : ℤ) - 1
          = y.date - 1 := by omega
      rw [he, List.cons_append,
        intRange_append (y.date - (x.date + 1)).toNat (x.date + 1) y.date _
          rfl (by omega) (by omega),
        ← intRange_eq_cons _ _ (by omega)]

theorem mem_fillWalk_of_mem (p : String) (xs : List DailyRates)
    (r : DailyRates) (hr : r ∈ xs) : r ∈ fillWalk p xs := by
  induction xs with
  | nil => cases hr
  | cons x tl ih =>
      cases tl with
      | nil => exact hr
      | cons y rest =>
          show r ∈ (x :: fillRange x p (x.date + 1) (y.date - x.date - 1).toNat)
            ++ fillWalk p (y :: rest)
          rcases List.mem_cons.mp hr with h1 | h1
          · exact List.mem_append_left _ (by simp [h1])
          · exact List.mem_append_right _ (ih h1)

theorem fillWalk_mem_spec (p : String) (xs : List DailyRates)
    (hs : StrictByDate xs) (e : DailyRates) (he : e ∈ fillWalk p xs) :
    e ∈ xs ∨ ∃ src, src ∈ xs ∧ src.date < e.date ∧
      (∀ r ∈ xs, r.date < e.date → r.date ≤ src.date) ∧
      e = synthFrom src p e.date := by
  induction xs with
  | nil => cases he
  | cons x tl ih =>
      cases tl with
      | nil => exact Or.inl he
      | cons y rest =>
          have hxy : x.date < y.date := (List.pairwise_cons.mp hs).1 y (by simp)
          have hs' : StrictByDate (y :: rest) := (List.pairwise_cons.mp hs).2
          have he' : e ∈ (x :: fillRange x p (x.date + 1)
              (y.date - x.date - 1).toNat) ++ fillWalk p (y :: rest) := he
          rcases List.mem_append.mp he' with h1 | h1
          · rcases List.mem_cons.mp h1 with h2 | h2
            · exact Or.inl (List.mem_cons.mpr (Or.inl h2))
            · -- a synthetic entry of the gap strictly between `x` and `y`
              obtain ⟨i, hi, rfl⟩ := (mem_fillRange _ _ _ _ _).mp h2
              have hdate : (synthFrom x p (x.date + 1 + (i : ℤ))).date
                  = x.date + 1 + (i : ℤ) := rfl
              have hilt : (i : ℤ) < ((y.date - x.date - 1).toNat : ℤ) := by
                exact_mod_cast hi
              refine Or.inr ⟨x, by simp, ?_, ?_, rfl⟩
              · rw [hdate]; omega
              · intro r hr hlt
                rcases List.mem_cons.mp hr with h3 | h3
                · rw [h3]
                · have : y.date ≤ r.date := head_le_of_strict y rest hs' r h3
                  rw [hdate] at hlt
                  omega
          · rcases ih hs' h1 with h2 | ⟨src, hmem, hlt, hnear, heq⟩
            · exact Or.inl (List.mem_cons.mpr (Or.inr h2))
            · refine Or.inr ⟨src, List.mem_cons.mpr (Or.inr hmem), hlt, ?_, heq⟩
              intro r hr hlt2
              rcases List.mem_cons.mp hr with h3 | h3
              · have : y.date ≤ src.date := head_le_of_strict y rest hs' src hmem
                rw [h3]
                omega
              · exact hnear r h3 hlt2

/-- C2 (amended): for every input list of DailyRates whose dates are
pairwise distinct and at most `today`, and every provider-name label `p`:
empty input gives empty output; otherwise the output's date sequence is
exactly the dense interval from the minimum input date through `today`
(hence strictly increasing with no duplicates), every original entry
appears unchanged, and every non-original entry is a synthetic copy of its
nearest preceding original (same rate table and base currency) carrying the
passed-in label `p`. -/
theorem fill_gaps_spec (rates : List DailyRates) (p : String) (today : ℤ)
    (hnd : (rates.map (fun r => r.date)).Nodup)
    (hle : ∀ r ∈ rates, r.date ≤ today) :
    (rates = [] → fill_gaps rates p today = []) ∧
    (rates ≠ [] →
      ∃ m, m ∈ rates.map (fun r => r.date) ∧
        (∀ d ∈ rates.map (fun r => r.date), m ≤ d) ∧
        (fill_gaps rates p today).map (fun r => r.date) = intRange m today ∧
        (∀ r ∈ rates, r ∈ fill_gaps rates p today) ∧
        (∀ e ∈ fill_gaps rates p today, e ∈ rates ∨
          ∃ src, src ∈ rates ∧ src.date < e.date ∧
            (∀ r ∈ rates, r.date < e.date → r.date ≤ src.date) ∧
            e = synthFrom src p e.date)) := by
  constructor
  · intro h; subst h; rfl
  · intro hne
    obtain ⟨s, ss, hss⟩ : ∃ h t, List.mergeSort rates
        (fun a b => decide (a.date ≤ b.date)) = h :: t :=
      List.exists_cons_of_ne_nil
        (by
          intro h
          exact hne (List.nil_perm.mp (h ▸ List.mergeSort_perm rates _)))
    have hperm : (s :: ss).Perm rates := hss ▸ List.mergeSort_perm rates _
    have hpw : (s :: ss).Pairwise (fun a b => a.date ≤ b.date) := by
      have h0 := @List.sorted_mergeSort DailyRates
        (fun a b : DailyRates => decide (a.date ≤ b.date))
        (fun a b c h1 h2 => by
          simp only [decide_eq_true_eq] at h1 h2 ⊢
          omega)
        (fun a b => by
          simp only [Bool.or_eq_true, decide_eq_true_eq]
          omega)
        rates
      rw [hss] at h0
      exact h0.imp (fun h => of_decide_eq_true h)
    have hndmap : ((s :: ss).map (fun r => r.date)).Nodup :=
      (List.Perm.nodup_iff (hperm.map _)).mpr hnd
    have hstrict : StrictByDate (s :: ss) := by
      have hne2 : (s :: ss).Pairwise (fun a b => a.date ≠ b.date) :=
        List.pairwise_map.mp hndmap
      exact (hpw.and hne2).imp (fun h => lt_of_le_of_ne h.1 h.2)
    have hLmem : (s :: ss).getLast (List.cons_ne_nil s ss) ∈ s :: ss :=
      List.getLast_mem _
    have hLtoday : ((s :: ss).getLast (List.cons_ne_nil s ss)).date ≤ today :=
      hle _ (hperm.mem_iff.mp hLmem)
    have hsL : s.date ≤ ((s :: ss).getLast (List.cons_ne_nil s ss)).date :=
      date_le_getLast _ (List.cons_ne_nil s ss) hstrict s (by simp)
    have hif : rates.isEmpty = false := by
      cases rates with
      | nil => exact absurd rfl hne
      | cons a l => rfl
    have hfg : fill_gaps rates p today =
        fillWalk p (s :: ss) ++
          fillRange ((s :: ss).getLast (List.cons_ne_nil s ss)) p
            (((s :: ss).getLast (List.cons_ne_nil s ss)).date + 1)
            (today - ((s :: ss).getLast (List.cons_ne_nil s ss)).date).toNat := by
      unfold fill_gaps
      rw [hif]
      simp only [Bool.false_eq_true, if_false]
      rw [hss, fillWalk_getLast? p s ss,
        List.getLast?_eq_getLast_of_ne_nil (List.cons_ne_nil s ss)]
    have hmapw : (fillWalk p (s :: ss)).map (fun r => r.date) =
        intRange s.date (((s :: ss).getLast (List.cons_ne_nil s ss)).date) :=
      fillWalk_map_date p ss s hstrict
    have hmapfr : (fillRange ((s :: ss).getLast (List.cons_ne_nil s ss)) p
          (((s :: ss).getLast (List.cons_ne_nil s ss)).date + 1)
          (today - ((s :: ss).getLast (List.cons_ne_nil s ss)).date).toNat).map
          (fun r => r.date) =
        intRange (((s :: ss).getLast (List.cons_ne_nil s ss)).date + 1) today := by
      rw [fillRange_map_date]
      congr 1
      omega
    have hmap : (fill_gaps rates p today).map (fun r => r.date) =
        intRange s.date today := by
      rw [hfg, List.map_append, hmapw, hmapfr]
      have h2 := intRange_append
        ((((s :: ss).getLast (List.cons_ne_nil s ss)).date + 1) - s.date).toNat
        s.date (((s :: ss).getLast (List.cons_ne_nil s ss)).date + 1) today
        rfl (by omega) (by omega)
      have h3 : ((s :: ss).getLast (List.cons_ne_nil s ss)).date + 1 - 1 =
          ((s :: ss).getLast (List.cons_ne_nil s ss)).date := by omega
      rw [h3] at h2
      exact h2
    refine ⟨s.date, ?_, ?_, hmap, ?_, ?_⟩
    · exact List.mem_map.mpr ⟨s, hperm.mem_iff.mp (by simp), rfl⟩
    · intro d hd
      obtain ⟨r, hr, rfl⟩ := List.mem_map.mp hd
      exact head_le_of_strict s ss hstrict r (hperm.mem_iff.mpr hr)
    · intro r hr
      rw [hfg]
      exact List.mem_append_left _ (mem_fillWalk_of_mem p _ r (hperm.mem_iff.mpr hr))
    · intro e he
      rw [hfg] at he
      rcases List.mem_append.mp he with h1 | h1
      · rcases fillWalk_mem_spec p _ hstrict e h1 with h2 | ⟨src, hmem, hlt, hnear, heq⟩
        · exact Or.inl (hperm.mem_iff.mp h2)
        · exact Or.inr ⟨src, hperm.mem_iff.mp hmem, hlt,
            fun r hr hlt2 => hnear r (hperm.mem_iff.mpr hr) hlt2, heq⟩
      · obtain ⟨i, hi, rfl⟩ := (mem_fillRange _ _ _ _ _).mp h1
        refine Or.inr ⟨(s :: ss).getLast (List.cons_ne_nil s ss),
          hperm.mem_iff.mp hLmem, ?_, ?_, rfl⟩
        · show ((s :: ss).getLast (List.cons_ne_nil s ss)).date <
            (synthFrom ((s :: ss).getLast (List.cons_ne_nil s ss)) p
              (((s :: ss).getLast (List.cons_ne_nil s ss)).date + 1 + (i : ℤ))).date
          show ((s :: ss).getLast (List.cons_ne_nil s ss)).date <
            ((s :: ss).getLast (List.cons_ne_nil s ss)).date + 1 + (i : ℤ)
          omega
        · intro r hr _
          exact date_le_getLast (s :: ss) (List.cons_ne_nil s ss) hstrict r
            (hperm.mem_iff.mpr hr)

/-- Concrete Friday-style entry for the C2 witness. -/
def c2wA : DailyRates := ⟨0, "USD", [("EUR", 1)], "ecb"⟩

/-- Concrete Monday-style entry for the C2 witness. -/
def c2wB : DailyRates := ⟨2, "USD", [("EUR", 2)], "ecb"⟩

/-- Witness for C2: two entries with a one-day gap, filled through day 3
under the relabelling provider name. -/
theorem fill_gaps_spec_witness :
    ∃ m, m ∈ [c2wA, c2wB].map (fun r => r.date) ∧
      (∀ d ∈ [c2wA, c2wB].map (fun r => r.date), m ≤ d) ∧
      (fill_gaps [c2wA, c2wB] "relabel" 3).map (fun r => r.date) = intRange m 3 ∧
      (∀ r ∈ [c2wA, c2wB], r ∈ fill_gaps [c2wA, c2wB] "relabel" 3) ∧
      (∀ e ∈ fill_gaps [c2wA, c2wB] "relabel" 3, e ∈ [c2wA, c2wB] ∨
        ∃ src, src ∈ [c2wA, c2wB] ∧ src.date < e.date ∧
          (∀ r ∈ [c2wA, c2wB], r.date < e.date → r.date ≤ src.date) ∧
          e = synthFrom src "relabel" e.date) :=
  (fill_gaps_spec [c2wA, c2wB] "relabel" 3 (by decide) (by decide)).2 (by decide)

/-- Duplicate-dated, future-dated entry for the C2 counterexample. -/
def c2x : DailyRates := ⟨5, "USD", [("EUR", 1)], "test"⟩

unseal List.merge List.mergeSort in
/-- Counterexample to C2 as stated: on an input with a duplicated date that
also lies after today (= 0), the output's date sequence is `[5, 5]` — it
has a duplicate date and is not the dense interval from the minimum input
date through today. -/
theorem fill_gaps_counterexample :
    (fill_gaps [c2x, c2x] "test" 0).map (fun r => r.date) = [5, 5] ∧
    ¬ ((fill_gaps [c2x, c2x] "test" 0).map (fun r => r.date)).Nodup ∧
    (fill_gaps [c2x, c2x] "test" 0).map (fun r => r.date) ≠ intRange 5 0 :=
  ⟨rfl, by decide, by decide⟩

/- ### Storage row counting (`src/db/repository.rs`) -/

/-- The count returned by `RatesRepository::store_daily_rates_batch`
(`src/db/repository.rs` lines 152-191): one increment per inserted row,
where an entry whose currency equals the day's base currency is skipped
(the pivot-to-pivot pair is never written). -/
def store_daily_rates_batch (rates : List DailyRates) : ℕ :=
  rates.foldl
    (fun count daily =>
      daily.rates.foldl
        (fun c kv => if kv.1 = daily.base_currency then c else c + 1) count)
    0

theorem foldl_count_day (base : String) (entries : RateTable) (count : ℕ) :
    entries.foldl (fun c kv => if kv.1 = base then c else c + 1) count =
      count + (entries.filter (fun kv => !(kv.1 == base))).length := by
  induction entries generalizing count with
  | nil => simp
  | cons kv rest ih =>
      obtain ⟨k, v⟩ := kv
      simp only [List.foldl_cons, List.filter_cons]
      by_cases h : k = base
      · rw [if_pos h, ih]
        have hb : (!(k == base)) = false := by simp [h]
        rw [hb]
        simp
      · rw [if_neg h, ih]
        have hb : (!(k == base)) = true := by simp [h]
        rw [hb]
        simp only [if_true, List.length_cons]
        omega

theorem store_daily_rates_batch_eq_sum (rates : List DailyRates) :
    store_daily_rates_batch rates =
      (rates.map (fun d =>
        (d.rates.filter (fun kv => !(kv.1 == d.base_currency))).length)).sum := by
  unfold store_daily_rates_batch
  suffices h : ∀ count : ℕ, rates.foldl
      (fun count daily =>
        daily.rates.foldl
          (fun c kv => if kv.1 = daily.base_currency then c else c + 1) count)
      count =
      count + (rates.map (fun d =>
        (d.rates.filter (fun kv => !(kv.1 == d.base_currency))).length)).sum by
    simpa using h 0
  induction rates with
  | nil => simp
  | cons d rest ih =>
      intro count
      simp only [List.foldl_cons, List.map_cons, List.sum_cons]
      rw [foldl_count_day, ih]
      omega

/- ### Sync orchestrator (`src/service.rs`) -/

/-- The storage and fetch effects performed by a sync, in order. -/
inductive SyncEffect where
  | fetchFullHistory : SyncEffect
  | fetchRange : ℤ → ℤ → SyncEffect
  | storeBatch : List DailyRates → SyncEffect
  | storeCurrencies : List (String × String) → SyncEffect
deriving DecidableEq, Repr

/-- `RatesService::sync_provider` (`src/service.rs` lines 115-150).  The
registry is the list of registered provider names; the repository's stored
latest date, the provider's fetch results and its currency catalog are
passed in as the collaborators' results; the returned list records the
fetch and storage effects in program order.  `today` is the explicit clock
value of line 126. -/
def sync_provider (registry : List String) (provider_name : String)
    (last_date : Option ℤ) (today : ℤ)
    (range_result : ℤ → ℤ → Except AppError (List DailyRates))
    (full_result : Except AppError (List DailyRates))
    (currencies_result : Except AppError (List (String × String))) :
    Except AppError (ℕ × List SyncEffect) :=
  if registry.contains provider_name = false then
    .error (.provider ("Unknown provider: " ++ provider_name))
  else
    match last_date with
    | some last =>
        if today ≤ last then .ok (0, [])
        else
          match range_result last today with
          | .error e => .error e
          | .ok rates =>
              match currencies_result with
              | .error e => .error e
              | .ok pairs =>
                  .ok (store_daily_rates_batch rates,
                    [.fetchRange last today, .storeBatch rates,
                     .storeCurrencies pairs])
    | none =>
        match full_result with
        | .error e => .error e
        | .ok rates =>
            match currencies_result with
            | .error e => .error e
            | .ok pairs =>
                .ok (store_daily_rates_batch rates,
                  [.fetchFullHistory, .storeBatch rates,
                   .storeCurrencies pairs])

/-- C5: the per-provider decision procedure of `sync_provider` for a
registered provider: no stored date → full-history fetch; stored date on or
after today → no fetch, zero records; otherwise a range fetch from the last
stored date (inclusive overlap) through today, persisted as a single batch
(exactly one `storeBatch` effect). -/
theorem sync_provider_decision_spec (registry : List String) (name : String)
    (last_date : Option ℤ) (today : ℤ)
    (range_result : ℤ → ℤ → Except AppError (List DailyRates))
    (full_result : Except AppError (List DailyRates))
    (currencies_result : Except AppError (List (String × String)))
    (hreg : registry.contains name = true) :
    (last_date = none → ∀ rates pairs, full_result = .ok rates →
      currencies_result = .ok pairs →
      sync_provider registry name last_date today range_result full_result
          currencies_result =
        .ok (store_daily_rates_batch rates,
          [.fetchFullHistory, .storeBatch rates, .storeCurrencies pairs])) ∧
    (∀ last, last_date = some last → today ≤ last →
      sync_provider registry name last_date today range_result full_result
          currencies_result = .ok (0, [])) ∧
    (∀ last, last_date = some last → last < today →
      ∀ rates pairs, range_result last today = .ok rates →
        currencies_result = .ok pairs →
        sync_provider registry name last_date today range_result full_result
            currencies_result =
          .ok (store_daily_rates_batch rates,
            [.fetchRange last today, .storeBatch rates,
             .storeCurrencies pairs])) := by
  have hmem : name ∈ registry := by simpa using hreg
  refine ⟨?_, ?_, ?_⟩
  · intro hnone rates pairs hfull hcurr
    subst hnone
    simp [sync_provider, hmem, hfull, hcurr]
  · intro last hsome hup
    subst hsome
    simp [sync_provider, hmem, if_pos hup]
  · intro last hsome hlt rates pairs hrange hcurr
    subst hsome
    simp [sync_provider, hmem, if_neg (not_le.mpr hlt), hrange, hcurr]

/-- Concrete range-fetch stub used by the sync witnesses. -/
def stubRange : ℤ → ℤ → Except AppError (List DailyRates) := fun _ _ => .ok [c2wA]

/-- Concrete full-history stub used by the sync witnesses. -/
def stubFull : Except AppError (List DailyRates) := .ok []

/-- Concrete currency-catalog stub used by the sync witnesses. -/
def stubCurr : Except AppError (List (String × String)) := .ok [("EUR", "Euro")]

/-- Witness for C5 at a registered provider with a stored date two days
before today. -/
theorem sync_provider_decision_spec_witness :
    ((some (10 : ℤ) = none) → ∀ rates pairs, stubFull = .ok rates →
      stubCurr = .ok pairs →
      sync_provider ["ecb", "nbu"] "ecb" (some 10) 12 stubRange stubFull stubCurr =
        .ok (store_daily_rates_batch rates,
          [.fetchFullHistory, .storeBatch rates, .storeCurrencies pairs])) ∧
    (∀ last, some (10 : ℤ) = some last → (12 : ℤ) ≤ last →
      sync_provider ["ecb", "nbu"] "ecb" (some 10) 12 stubRange stubFull stubCurr =
        .ok (0, [])) ∧
    (∀ last, some (10 : ℤ) = some last → last < 12 →
      ∀ rates pairs, stubRange last 12 = .ok rates → stubCurr = .ok pairs →
        sync_provider ["ecb", "nbu"] "ecb" (some 10) 12 stubRange stubFull stubCurr =
          .ok (store_daily_rates_batch rates,
            [.fetchRange last 12, .storeBatch rates, .storeCurrencies pairs])) :=
  sync_provider_decision_spec ["ecb", "nbu"] "ecb" (some 10) 12
    stubRange stubFull stubCurr (by decide)

/-- C9 (amended): a sync of a registered provider that performs a fetch and
completes successfully stores the provider's currency catalog; the
up-to-date early return (`last >= today`) reports zero records and performs
no effects at all, so it leaves the currency catalog untouched. -/
theorem sync_provider_currencies_spec (registry : List String) (name : String)
    (last_date : Option ℤ) (today : ℤ)
    (range_result : ℤ → ℤ → Except AppError (List DailyRates))
    (full_result : Except AppError (List DailyRates))
    (currencies_result : Except AppError (List (String × String)))
    (hreg : registry.contains name = true) :
    (∀ last, last_date = some last → today ≤ last →
      sync_provider registry name last_date today range_result full_result
          currencies_result = .ok (0, [])) ∧
    (∀ count effects,
      sync_provider registry name last_date today range_result full_result
          currencies_result = .ok (count, effects) →
      effects ≠ [] →
      ∃ pairs, currencies_result = .ok pairs ∧
        SyncEffect.storeCurrencies pairs ∈ effects) := by
  have hmem : name ∈ registry := by simpa using hreg
  constructor
  · intro last hsome hup
    subst hsome
    simp [sync_provider, hmem, if_pos hup]
  · intro count effects hok hne
    cases last_date with
    | some last =>
        by_cases hup : today ≤ last
        · have hcalc : sync_provider registry name (some last) today
              range_result full_result currencies_result = .ok (0, []) := by
            simp [sync_provider, hmem, if_pos hup]
          rw [hcalc] at hok
          exact absurd (congrArg Prod.snd (Except.ok.inj hok)).symm hne
        · cases hrr : range_result last today with
          | error e =>
              have hcalc : sync_provider registry name (some last) today
                  range_result full_result currencies_result = .error e := by
                simp [sync_provider, hmem, if_neg hup, hrr]
              rw [hcalc] at hok
              simp at hok
          | ok rates =>
              cases hcc : currencies_result with
              | error e =>
                  have hcalc : sync_provider registry name (some last) today
                      range_result full_result currencies_result = .error e := by
                    simp [sync_provider, hmem, if_neg hup, hrr, hcc]
                  rw [hcalc] at hok
                  simp at hok
              | ok pairs =>
                  have hcalc : sync_provider registry name (some last) today
                      range_result full_result currencies_result =
                      .ok (store_daily_rates_batch rates,
                        [.fetchRange last today, .storeBatch rates,
                         .storeCurrencies pairs]) := by
                    simp [sync_provider, hmem, if_neg hup, hrr, hcc]
                  rw [hcalc] at hok
                  refine ⟨pairs, rfl, ?_⟩
                  have he : effects =
                      [.fetchRange last today, .storeBatch rates,
                       .storeCurrencies pairs] :=
                    (congrArg Prod.snd (Except.ok.inj hok)).symm
                  rw [he]
                  simp
    | none =>
        cases hff : full_result with
        | error e =>
            have hcalc : sync_provider registry name none today
                range_result full_result currencies_result = .error e := by
              simp [sync_provider, hmem, hff]
            rw [hcalc] at hok
            simp at hok
        | ok rates =>
            cases hcc : currencies_result with
            | error e =>
                have hcalc : sync_provider registry name none today
                    range_result full_result currencies_result = .error e := by
                  simp [sync_provider, hmem, hff, hcc]
                rw [hcalc] at hok
                simp at hok
            | ok pairs =>
                have hcalc : sync_provider registry name none today
                    range_result full_result currencies_result =
                    .ok (store_daily_rates_batch rates,
                      [.fetchFullHistory, .storeBatch rates,
                       .storeCurrencies pairs]) := by
                  simp [sync_provider, hmem, hff, hcc]
                rw [hcalc] at hok
                refine ⟨pairs, rfl, ?_⟩
                have he : effects =
                    [.fetchFullHistory, .storeBatch rates,
                     .storeCurrencies pairs] :=
                  (congrArg Prod.snd (Except.ok.inj hok)).symm
                rw [he]
                simp

/-- Witness for C9's amended statement on a full-history first sync. -/
theorem sync_provider_currencies_spec_witness :
    (∀ last, (none : Option ℤ) = some last → (12 : ℤ) ≤ last →
      sync_provider ["ecb"] "ecb" none 12 stubRange stubFull stubCurr =
        .ok (0, [])) ∧
    (∀ count effects,
      sync_provider ["ecb"] "ecb" none 12 stubRange stubFull stubCurr =
        .ok (count, effects) →
      effects ≠ [] →
      ∃ pairs, stubCurr = .ok pairs ∧
        SyncEffect.storeCurrencies pairs ∈ effects) :=
  sync_provider_currencies_spec ["ecb"] "ecb" none 12
    stubRange stubFull stubCurr (by decide)

/-- Counterexample to C9 as stated: a successful up-to-date sync (stored
date 10, today 10) reports zero records and performs no effects — in
particular it does not store the provider's currency catalog even though
the catalog result was available. -/
theorem sync_provider_currencies_counterexample :
    sync_provider ["ecb"] "ecb" (some 10) 10 stubRange stubFull stubCurr =
      .ok (0, []) ∧
    SyncEffect.storeCurrencies [("EUR", "Euro")] ∉ ([] : List SyncEffect) :=
  ⟨rfl, by simp⟩

/-- C10: `store_daily_rates_batch` returns the number of individual rate
rows written — the sum over all input days of the day's table entries
excluding the entry whose currency equals that day's base currency — and a
successful `sync_provider` reports exactly the row count of the batch it
stores. -/
theorem store_batch_count_spec (rates : List DailyRates) (registry : List String)
    (name : String) (last_date : Option ℤ) (today : ℤ)
    (range_result : ℤ → ℤ → Except AppError (List DailyRates))
    (full_result : Except AppError (List DailyRates))
    (currencies_result : Except AppError (List (String × String))) :
    (store_daily_rates_batch rates =
      (rates.map (fun d =>
        (d.rates.filter (fun kv => !(kv.1 == d.base_currency))).length)).sum) ∧
    (∀ count effects,
      sync_provider registry name last_date today range_result full_result
          currencies_result = .ok (count, effects) →
      ∀ b, SyncEffect.storeBatch b ∈ effects →
        count = (b.map (fun d =>
          (d.rates.filter (fun kv => !(kv.1 == d.base_currency))).length)).sum) := by
  refine ⟨store_daily_rates_batch_eq_sum rates, ?_⟩
  intro count effects hok b hb
  by_cases hmem : name ∈ registry
  swap
  · have hcalc : sync_provider registry name last_date today range_result
        full_result currencies_result =
        .error (.provider ("Unknown provider: " ++ name)) := by
      simp [sync_provider, hmem]
    rw [hcalc] at hok
    simp at hok
  · cases last_date with
    | some last =>
        by_cases hup : today ≤ last
        · have hcalc : sync_provider registry name (some last) today
              range_result full_result currencies_result = .ok (0, []) := by
            simp [sync_provider, hmem, if_pos hup]
          rw [hcalc] at hok
          have he : effects = [] := (congrArg Prod.snd (Except.ok.inj hok)).symm
          rw [he] at hb
          cases hb
        · cases hrr : range_result last today with
          | error e =>
              have hcalc : sync_provider registry name (some last) today
                  range_result full_result currencies_result = .error e := by
                simp [sync_provider, hmem, if_neg hup, hrr]
              rw [hcalc] at hok
              simp at hok
          | ok rs =>
              cases hcc : currencies_result with
              | error e =>
                  have hcalc : sync_provider registry name (some last) today
                      range_result full_result currencies_result = .error e := by
                    simp [sync_provider, hmem, if_neg hup, hrr, hcc]
                  rw [hcalc] at hok
                  simp at hok
              | ok pairs =>
                  have hcalc : sync_provider registry name (some last) today
                      range_result full_result currencies_result =
                      .ok (store_daily_rates_batch rs,
                        [.fetchRange last today, .storeBatch rs,
                         .storeCurrencies pairs]) := by
                    simp [sync_provider, hmem, if_neg hup, hrr, hcc]
                  rw [hcalc] at hok
                  have hc : count = store_daily_rates_batch rs :=
                    (congrArg Prod.fst (Except.ok.inj hok)).symm
                  have he : effects =
                      [.fetchRange last today, .storeBatch rs,
                       .storeCurrencies pairs] :=
                    (congrArg Prod.snd (Except.ok.inj hok)).symm
                  rw [he] at hb
                  simp only [List.mem_cons, List.mem_singleton] at hb
                  rcases hb with h1 | h1 | h1 | h1
                  · cases h1
                  · have hbb : b = rs := (SyncEffect.storeBatch.inj h1.symm).symm
                    rw [hc, hbb, store_daily_rates_batch_eq_sum]
                  · cases h1
                  · cases h1
    | none =>
        cases hff : full_result with
        | error e =>
            have hcalc : sync_provider registry name none today range_result
                full_result currencies_result = .error e := by
              simp [sync_provider, hmem, hff]
            rw [hcalc] at hok
            simp at hok
        | ok rs =>
            cases hcc : currencies_result with
            | error e =>
                have hcalc : sync_provider registry name none today range_result
                    full_result currencies_result = .error e := by
                  simp [sync_provider, hmem, hff, hcc]
                rw [hcalc] at hok
                simp at hok
            | ok pairs =>
                have hcalc : sync_provider registry name none today range_result
                    full_result currencies_result =
                    .ok (store_daily_rates_batch rs,
                      [.fetchFullHistory, .storeBatch rs,
                       .storeCurrencies pairs]) := by
                  simp [sync_provider, hmem, hff, hcc]
                rw [hcalc] at hok
                have hc : count = store_daily_rates_batch rs :=
                  (congrArg Prod.fst (Except.ok.inj hok)).symm
                have he : effects =
                    [.fetchFullHistory, .storeBatch rs,
                     .storeCurrencies pairs] :=
                  (congrArg Prod.snd (Except.ok.inj hok)).symm
                rw [he] at hb
                simp only [List.mem_cons, List.mem_singleton] at hb
                rcases hb with h1 | h1 | h1 | h1
                · cases h1
                · have hbb : b = rs := (SyncEffect.storeBatch.inj h1.symm).symm
                  rw [hc, hbb, store_daily_rates_batch_eq_sum]
                · cases h1
                · cases h1

/-- One day with two non-pivot entries for the C10 witness. -/
def c10batch : List DailyRates :=
  [⟨0, "USD", [("EUR", 1), ("UAH", 2), ("USD", 1)], "nbu"⟩]

/-- Witness for C10: one day with two non-pivot entries yields row count 2,
not the day count 1. -/
theorem store_batch_count_spec_witness :
    (store_daily_rates_batch c10batch =
      (c10batch.map (fun d =>
        (d.rates.filter (fun kv => !(kv.1 == d.base_currency))).length)).sum) ∧
    store_daily_rates_batch c10batch = 2 ∧ c10batch.length = 1 :=
  ⟨(store_batch_count_spec c10batch [] "x" none 0 stubRange stubFull stubCurr).1,
   by decide, by decide⟩

/- ### Failure isolation across providers (`src/service.rs` lines 91-112) -/

/-- One row of the `sync_log` table as written by `log_sync`. -/
structure SyncLogEntry where
  provider : String
  records_count : ℕ
  status : String
deriving DecidableEq, Repr

/-- The `Display` rendering of the embedded `AppError` variants
(`src/error.rs`, `thiserror` messages). -/
def errMessage : AppError → String
  | .invalidCurrency c => "Invalid currency: " ++ c
  | .noDataAvailable => "No data available for the requested date"
  | .provider m => "Provider error: " ++ m

/-- `RatesService::sync_all_providers` (`src/service.rs` lines 91-112):
iterate all registered providers in order; a success is logged with its
count and status `success`, a failure is caught and logged with count 0 and
status `error: {e}`, and the loop continues either way.  Each provider's
sync outcome is passed in as `sync_result`. -/
def sync_all_providers (providers : List String)
    (sync_result : String → Except AppError ℕ) : List SyncLogEntry :=
  providers.map (fun name =>
    match sync_result name with
    | .ok count => ⟨name, count, "success"⟩
    | .error e => ⟨name, 0, "error: " ++ errMessage e⟩)

/-- C7: `sync_all_providers` produces exactly one sync-log entry per
registered provider, in order — so a failing provider does not prevent the
remaining providers from being synced — and a failure is recorded with an
error status and a zero record count, a success with its count. -/
theorem sync_all_providers_spec (providers : List String)
    (sync_result : String → Except AppError ℕ) :
    List.Forall₂ (fun name entry =>
      entry.provider = name ∧
      (∀ c, sync_result name = .ok c → entry = ⟨name, c, "success"⟩) ∧
      (∀ e, sync_result name = .error e →
        entry.records_count = 0 ∧ entry.status = "error: " ++ errMessage e))
      providers (sync_all_providers providers sync_result) := by
  induction providers with
  | nil => exact List.Forall₂.nil
  | cons name rest ih =>
      refine List.Forall₂.cons ?_ ih
      cases hr : sync_result name with
      | ok c =>
          simp only [hr]
          refine ⟨by trivial, ?_, ?_⟩
          · intro c' hc
            cases hc
            rfl
          · intro e he
            exact Except.noConfusion he
      | error e =>
          simp only [hr]
          refine ⟨by trivial, ?_, ?_⟩
          · intro c' hc
            exact Except.noConfusion hc
          · intro e' he
            cases he
            exact ⟨by trivial, rfl⟩

/- ### Query service (`src/service.rs` lines 173-223) -/

/-- `RatesResponse` (`src/models.rs`), over the embedded types. -/
structure RatesResponse where
  amount : ℚ
  base : String
  date : ℤ
  rates : RateTable
deriving DecidableEq, Repr

/-- Whether a currency survives the `symbols` filter of
`get_rates_for_date`: with no symbols everything is retained, otherwise
only the requested symbols. -/
def keepSymbol : Option (List String) → String → Bool
  | none, _ => true
  | some ss, c => ss.contains c

/-- `RatesService::get_rates_for_date` (`src/service.rs` lines 173-223).
The repository result for the date (a USD-based map) is the `stored`
argument; the internal pivot is inserted at 1.0, the table converted to the
requested base via `convert_base_currency` when the base is not the pivot,
retained by the symbol filter, and each value multiplied by `amount` and
rounded as the final step. -/
def get_rates_for_date (stored : RateTable) (date : ℤ) (base : String)
    (symbols : Option (List String)) (amount : ℚ) :
    Except AppError RatesResponse :=
  if stored.isEmpty then .error .noDataAvailable
  else
    match (if base = "USD" then Except.ok (insertRate stored "USD" 1)
           else convert_base_currency (insertRate stored "USD" 1) "USD" base) with
    | .error e => .error e
    | .ok converted =>
        .ok ⟨amount, base, date,
          ((match symbols with
            | some ss => converted.filter (fun kv : String × ℚ => ss.contains kv.1)
            | none => converted).map
            (fun kv : String × ℚ => (kv.1, round_rate (kv.2 * amount))))⟩

/-- The rate table of a query response; empty on error. -/
def responseRates : Except AppError RatesResponse → RateTable
  | .ok r => r.rates
  | .error _ => []

theorem lookupRate_map_round (amount : ℚ) (t : RateTable) (c : String) :
    lookupRate (t.map (fun kv : String × ℚ =>
        (kv.1, round_rate (kv.2 * amount)))) c =
      (lookupRate t c).map (fun v => round_rate (v * amount)) := by
  induction t with
  | nil => rfl
  | cons kv rest ih =>
      obtain ⟨k, v⟩ := kv
      by_cases h : k = c
      · simp [lookupRate, h]
      · simp only [List.map_cons, lookupRate, if_neg h]
        exact ih

theorem lookupRate_filter_keys (pred : String → Bool) (t : RateTable) (c : String) :
    lookupRate (t.filter (fun kv => pred kv.1)) c =
      if pred c then lookupRate t c else none := by
  induction t with
  | nil => simp [lookupRate]
  | cons kv rest ih =>
      obtain ⟨k, v⟩ := kv
      rw [List.filter_cons]
      by_cases h : k = c
      · subst h
        by_cases hp : pred k = true
        · rw [if_pos hp]
          simp [lookupRate, hp]
        · rw [if_neg hp, ih]
          simp only [lookupRate, if_pos rfl]
          rw [if_neg hp, if_neg hp]
      · by_cases hp : pred k = true
        · rw [if_pos hp]
          simp only [lookupRate, if_neg h]
          exact ih
        · rw [if_neg hp, ih]
          simp only [lookupRate, if_neg h]

theorem lookup_pipeline (converted : RateTable) (symbols : Option (List String))
    (amount : ℚ) (c : String) :
    lookupRate ((match symbols with
      | some ss => converted.filter (fun kv : String × ℚ => ss.contains kv.1)
      | none => converted).map
      (fun kv : String × ℚ => (kv.1, round_rate (kv.2 * amount)))) c =
    (if keepSymbol symbols c then
      (lookupRate converted c).map (fun v => round_rate (v * amount))
    else none) := by
  cases symbols with
  | none =>
      show lookupRate (converted.map (fun kv : String × ℚ =>
          (kv.1, round_rate (kv.2 * amount)))) c = _
      rw [lookupRate_map_round]
      simp [keepSymbol]
  | some ss =>
      show lookupRate ((converted.filter (fun kv : String × ℚ =>
          ss.contains kv.1)).map (fun kv : String × ℚ =>
          (kv.1, round_rate (kv.2 * amount)))) c = _
      rw [lookupRate_map_round, lookupRate_filter_keys]
      by_cases h : c ∈ ss
      · simp [keepSymbol, h]
      · simp [keepSymbol, h]

/-- C8: `get_rates_for_date` fails with `NoDataAvailable` when storage has
no pivot rates for the date; otherwise the pivot is inserted at 1.0, the
table converted to the requested base (no conversion when the base is the
pivot; a conversion error propagates), a requested symbol absent from the
table is simply dropped (its lookup is `none`, no error), and every
retained value is the converted value multiplied by `amount` and only then
rounded to 6 decimals by `round_rate` — rounding is the final step, applied
after the conversion math. -/
theorem get_rates_for_date_spec (stored : RateTable) (date : ℤ) (base : String)
    (symbols : Option (List String)) (amount : ℚ) :
    (stored = [] →
      get_rates_for_date stored date base symbols amount =
        .error .noDataAvailable) ∧
    (stored ≠ [] → base = "USD" →
      ∀ c, lookupRate (responseRates
          (get_rates_for_date stored date base symbols amount)) c =
        (if keepSymbol symbols c then
          (lookupRate (insertRate stored "USD" 1) c).map
            (fun v => round_rate (v * amount))
        else none)) ∧
    (stored ≠ [] → base ≠ "USD" →
      ∀ e, convert_base_currency (insertRate stored "USD" 1) "USD" base =
          .error e →
        get_rates_for_date stored date base symbols amount = .error e) ∧
    (stored ≠ [] → base ≠ "USD" →
      ∀ T, convert_base_currency (insertRate stored "USD" 1) "USD" base =
          .ok T →
        (get_rates_for_date stored date base symbols amount).toOption.map
            (fun r => (r.amount, r.base, r.date)) = some (amount, base, date) ∧
        ∀ c, lookupRate (responseRates
            (get_rates_for_date stored date base symbols amount)) c =
          (if keepSymbol symbols c then
            (lookupRate T c).map (fun v => round_rate (v * amount))
          else none)) := by
  refine ⟨?_, ?_, ?_, ?_⟩
  · intro h
    subst h
    rfl
  · intro hne hbase c
    subst hbase
    have hif : stored.isEmpty = false := by
      cases stored with
      | nil => exact absurd rfl hne
      | cons a l => rfl
    unfold get_rates_for_date
    rw [hif]
    simp only [Bool.false_eq_true, if_false, if_pos rfl]
    rw [← lookup_pipeline (insertRate stored "USD" 1) symbols amount c]
    rfl
  · intro hne hbase e he
    have hif : stored.isEmpty = false := by
      cases stored with
      | nil => exact absurd rfl hne
      | cons a l => rfl
    unfold get_rates_for_date
    rw [hif]
    simp only [Bool.false_eq_true, if_false, if_neg hbase, he]
  · intro hne hbase T hT
    have hif : stored.isEmpty = false := by
      cases stored with
      | nil => exact absurd rfl hne
      | cons a l => rfl
    have hcalc : get_rates_for_date stored date base symbols amount =
        .ok ⟨amount, base, date,
          ((match symbols with
            | some ss => T.filter (fun kv : String × ℚ => ss.contains kv.1)
            | none => T).map
            (fun kv : String × ℚ => (kv.1, round_rate (kv.2 * amount))))⟩ := by
      unfold get_rates_for_date
      rw [hif]
      simp only [Bool.false_eq_true, if_false, if_neg hbase, hT]
    rw [hcalc]
    refine ⟨rfl, ?_⟩
    intro c
    rw [← lookup_pipeline T symbols amount c]
    rfl

/-- Witness for C8 on the spec's symbol-filter scenario: stored table
`{EUR ↦ 0.9}`, base USD, requested symbols `[EUR, ZZZ]` with `ZZZ` unknown,
amount 1. -/
theorem get_rates_for_date_spec_witness :
    ([("EUR", (9 : ℚ)/10)] ≠ ([] : RateTable)) ∧
    (lookupRate (responseRates (get_rates_for_date [("EUR", (9 : ℚ)/10)] 0
        "USD" (some ["EUR", "ZZZ"]) 1)) "ZZZ" =
      (if keepSymbol (some ["EUR", "ZZZ"]) "ZZZ" then
        (lookupRate (insertRate [("EUR", (9 : ℚ)/10)] "USD" 1) "ZZZ").map
          (fun v => round_rate (v * 1))
      else none)) ∧
    (lookupRate (responseRates (get_rates_for_date [("EUR", (9 : ℚ)/10)] 0
        "USD" (some ["EUR", "ZZZ"]) 1)) "EUR" =
      (if keepSymbol (some ["EUR", "ZZZ"]) "EUR" then
        (lookupRate (insertRate [("EUR", (9 : ℚ)/10)] "USD" 1) "EUR").map
          (fun v => round_rate (v * 1))
      else none)) ∧
    lookupRate (insertRate [("EUR", (9 : ℚ)/10)] "USD" 1) "ZZZ" = none :=
  ⟨by simp,
   (get_rates_for_date_spec [("EUR", (9 : ℚ)/10)] 0 "USD"
     (some ["EUR", "ZZZ"]) 1).2.1 (by simp) rfl "ZZZ",
   (get_rates_for_date_spec [("EUR", (9 : ℚ)/10)] 0 "USD"
     (some ["EUR", "ZZZ"]) 1).2.1 (by simp) rfl "EUR",
   rfl⟩
